import Mathlib

/-!
Verification of the ZFS debug facility (`include/sys/zfs_debug.h`) against its
specification: the bounded diagnostic message log, the flag-gated
instrumentation entry points, and the panic-or-recover decision point.

The header provides the category bitmask constants, the `dprintf` and
`zfs_dbgmsg` macros and the extern declarations of `__dprintf`,
`zfs_panic_recover` and `dprintf_find_string`.  The bodies of the extern
functions (the bounded message log implementation) are not part of the
source tree; they are modelled from the specification, as marked on each
definition below.
-/

namespace ZfsDebug

/-- Category bit, from the header: `#define ZFS_DEBUG_DPRINTF (1 << 0)`. -/
def ZFS_DEBUG_DPRINTF : Nat := 1 <<< 0

/-- `#define ZFS_DEBUG_DBUF_VERIFY (1 << 1)`. -/
def ZFS_DEBUG_DBUF_VERIFY : Nat := 1 <<< 1

/-- `#define ZFS_DEBUG_DNODE_VERIFY (1 << 2)`. -/
def ZFS_DEBUG_DNODE_VERIFY : Nat := 1 <<< 2

/-- `#define ZFS_DEBUG_SNAPNAMES (1 << 3)`. -/
def ZFS_DEBUG_SNAPNAMES : Nat := 1 <<< 3

/-- `#define ZFS_DEBUG_MODIFY (1 << 4)`. -/
def ZFS_DEBUG_MODIFY : Nat := 1 <<< 4

/-- `#define ZFS_DEBUG_ZIO_FREE (1 << 6)`; the header skips bit 5
("1<<5 was previously used, try not to reuse"). -/
def ZFS_DEBUG_ZIO_FREE : Nat := 1 <<< 6

/-- `#define ZFS_DEBUG_HISTOGRAM_VERIFY (1 << 7)`. -/
def ZFS_DEBUG_HISTOGRAM_VERIFY : Nat := 1 <<< 7

/-- `#define ZFS_DEBUG_METASLAB_VERIFY (1 << 8)`. -/
def ZFS_DEBUG_METASLAB_VERIFY : Nat := 1 <<< 8

/-- `#define ZFS_DEBUG_SET_ERROR (1 << 9)`. -/
def ZFS_DEBUG_SET_ERROR : Nat := 1 <<< 9

/-- `#define ZFS_DEBUG_INDIRECT_REMAP (1 << 10)`. -/
def ZFS_DEBUG_INDIRECT_REMAP : Nat := 1 <<< 10

/-- `#define ZFS_DEBUG_TRIM (1 << 11)`. -/
def ZFS_DEBUG_TRIM : Nat := 1 <<< 11

/-- The eleven category constants, in header order. -/
def zfsDebugCategories : List Nat :=
  [ZFS_DEBUG_DPRINTF, ZFS_DEBUG_DBUF_VERIFY, ZFS_DEBUG_DNODE_VERIFY,
   ZFS_DEBUG_SNAPNAMES, ZFS_DEBUG_MODIFY, ZFS_DEBUG_ZIO_FREE,
   ZFS_DEBUG_HISTOGRAM_VERIFY, ZFS_DEBUG_METASLAB_VERIFY,
   ZFS_DEBUG_SET_ERROR, ZFS_DEBUG_INDIRECT_REMAP, ZFS_DEBUG_TRIM]

/-- The four extern global flags of the header (`zfs_flags`, `zfs_recover`,
`zfs_free_leak_on_eio`, `zfs_dbgmsg_enable`), modelled as an explicit flag
registry record.  C truth-testing of an `int` is the test `x != 0`. -/
structure Flags where
  zfs_flags : Nat
  zfs_recover : Nat
  zfs_free_leak_on_eio : Nat
  zfs_dbgmsg_enable : Nat
deriving DecidableEq, Repr

/-- Modelled from the spec: the byte size accounted for a stored entry is the
length of its text. -/
def entrySize (e : String) : Nat := e.length

/-- Modelled from the spec: the log's running total byte size, over the stored
entries (head of the list = oldest entry). -/
def totalSize (l : List String) : Nat := (l.map entrySize).sum

/-- Modelled from the spec: FIFO eviction — drop the oldest entries while the
total byte size is over the cap. -/
def evict (cap : Nat) : List String → List String
  | [] => []
  | e :: t => if totalSize (e :: t) ≤ cap then e :: t else evict cap t

/-- Modelled from the spec: `append(text)` on the bounded message log.  An
entry that alone exceeds the cap is rejected (the spec leaves the choice
between truncating and rejecting open; we pick the deterministic reject rule).
Otherwise the entry is appended at the young end and the oldest entries are
evicted until the total fits under the cap. -/
def logAppend (cap : Nat) (l : List String) (x : String) : List String :=
  if cap < entrySize x then l else evict cap (l ++ [x])

/-- Run a whole sequence of appends against an initially empty log. -/
def appendAll (cap : Nat) (xs : List String) : List String :=
  xs.foldl (logAppend cap) []

/-- The observable machine state threaded through the entry points: the
bounded log (with its configured cap), a counter of argument-evaluation side
effects, and a counter of invocations of the external abort mechanism. -/
structure Machine where
  cap : Nat
  log : List String
  effects : Nat
  aborts : Nat
deriving DecidableEq, Repr

/-- A variadic argument list at a call site, as the macros see it: evaluating
it performs `effect` observable side effects and yields the formatted message
body `value` (the host formatting engine is out of scope and folded into the
value). -/
structure ArgExpr where
  effect : Nat
  value : String
deriving DecidableEq, Repr

/-- Evaluate a call site's argument expressions: their side effects hit the
machine state. -/
def evalArg (a : ArgExpr) (m : Machine) : Machine :=
  { m with effects := m.effects + a.effect }

/-- Append a rendered line to the machine's bounded log. -/
def appendM (m : Machine) (txt : String) : Machine :=
  { m with log := logAppend m.cap m.log txt }

/-- Record one invocation of the external abort mechanism. -/
def recordAbort (m : Machine) : Machine :=
  { m with aborts := m.aborts + 1 }

/-- Modelled from the spec: the formatter shim renders the single constant
line `<file>:<function>:<line>: <formatted template>`. -/
def render (file func : String) (line : Nat) (body : String) : String :=
  file ++ ":" ++ func ++ ":" ++ toString line ++ ": " ++ body

/-- Modelled from the spec: the body of the extern `__dprintf` — render the
location-tagged line and hand it to the bounded log.  The `dprint` tag marks
trace entries as informational but does not change the rendered text. -/
def __dprintf (_dprint : Bool) (file func : String) (line : Nat) (body : String)
    (m : Machine) : Machine :=
  appendM m (render file func line body)

/-- The `dprintf` macro of the header.  `zfsDebugDefined` is the build-time
`ZFS_DEBUG` switch: when it is off the macro is `((void)0)`; when on, it is
`if (zfs_flags & ZFS_DEBUG_DPRINTF) __dprintf(B_TRUE, __FILE__, __func__,
__LINE__, __VA_ARGS__)`, so the arguments are expanded inside the guard and
are evaluated only when the category bit is set. -/
def dprintf (zfsDebugDefined : Bool) (g : Flags) (file func : String)
    (line : Nat) (a : ArgExpr) (m : Machine) : Machine :=
  if zfsDebugDefined then
    if g.zfs_flags &&& ZFS_DEBUG_DPRINTF ≠ 0 then
      __dprintf true file func line a.value (evalArg a m)
    else m
  else m

/-- The `zfs_dbgmsg` macro of the header: `if (zfs_dbgmsg_enable)
__dprintf(B_FALSE, __FILE__, __func__, __LINE__, __VA_ARGS__)`.  The argument
expressions sit inside the guard, and the category mask is not consulted. -/
def zfs_dbgmsg (g : Flags) (file func : String) (line : Nat) (a : ArgExpr)
    (m : Machine) : Machine :=
  if g.zfs_dbgmsg_enable ≠ 0 then
    __dprintf false file func line a.value (evalArg a m)
  else m

/-- Modelled from the spec: the body of the extern `zfs_panic_recover` —
render and append the condition description; if `zfs_recover` is set, return
control to the caller, otherwise invoke the external abort mechanism (which
never returns; the invocation is recorded on the abort counter). -/
def zfs_panic_recover (g : Flags) (desc : ArgExpr) (m : Machine) : Machine :=
  if g.zfs_recover ≠ 0 then appendM (evalArg desc m) desc.value
  else recordAbort (appendM (evalArg desc m) desc.value)

/-- Is `n` a leading block of `h`?  Helper for the substring search. -/
def isPref : List Char → List Char → Bool
  | [], _ => true
  | _ :: _, [] => false
  | a :: as, b :: bs => a == b && isPref as bs

/-- Does `needle` occur contiguously inside the haystack? -/
def hasSub (needle : List Char) : List Char → Bool
  | [] => isPref needle []
  | c :: rest => isPref needle (c :: rest) || hasSub needle rest

/-- Substring test on strings, via their character lists. -/
def containsSub (s e : String) : Bool := hasSub s.data e.data

/-- Modelled from the spec: the body of the extern `dprintf_find_string` —
`find(s)` reports whether some currently retained entry's text contains `s`
as a substring. -/
def dprintf_find_string (s : String) (m : Machine) : Bool :=
  m.log.any (fun e => containsSub s e)

/-- Modelled from the spec: `clear()` empties the log. -/
def clearLog (m : Machine) : Machine := { m with log := [] }

/-- The entries of one thread interleaved into the entries of another,
preserving each thread's internal order. -/
inductive Ilv2 : List String → List String → List String → Prop where
  | nil : Ilv2 [] [] []
  | left {x as bs cs} : Ilv2 as bs cs → Ilv2 (x :: as) bs (x :: cs)
  | right {x as bs cs} : Ilv2 as bs cs → Ilv2 as (x :: bs) (x :: cs)

/-- `IlvN ts xs`: the append sequence `xs` is an interleaving of the threads
`ts`.  Under the log's single mutual-exclusion discipline, any concurrent
execution of the threads serializes into such a sequence. -/
inductive IlvN : List (List String) → List String → Prop where
  | nil : IlvN [] []
  | cons {t ts rest xs} : Ilv2 t rest xs → IlvN ts rest → IlvN (t :: ts) xs

/-! ### Lemmas about the bounded log -/

theorem totalSize_cons (e : String) (t : List String) :
    totalSize (e :: t) = entrySize e + totalSize t := by
  simp [totalSize]

theorem totalSize_append (l₁ l₂ : List String) :
    totalSize (l₁ ++ l₂) = totalSize l₁ + totalSize l₂ := by
  simp [totalSize]

theorem evict_le (cap : Nat) : ∀ l : List String, totalSize (evict cap l) ≤ cap
  | [] => by simp [evict, totalSize]
  | e :: t => by
    by_cases h : totalSize (e :: t) ≤ cap
    · simp [evict, h]
    · simpa [evict, h] using evict_le cap t

theorem evict_suffix (cap : Nat) : ∀ l : List String, evict cap l <:+ l
  | [] => List.nil_suffix
  | e :: t => by
    by_cases h : totalSize (e :: t) ≤ cap
    · simp [evict, h]
    · simp only [evict, h, if_false]
      exact (evict_suffix cap t).trans (List.suffix_cons e t)

theorem evict_max (cap : Nat) :
    ∀ l s : List String, s <:+ l → totalSize s ≤ cap → s <:+ evict cap l
  | [], s, hs, _ => by simpa [evict] using hs
  | e :: t, s, hs, hcap => by
    by_cases h : totalSize (e :: t) ≤ cap
    · simpa [evict, h] using hs
    · simp only [evict, h, if_false]
      rcases List.suffix_cons_iff.mp hs with rfl | hs'
      · exact absurd hcap h
      · exact evict_max cap t s hs' hcap

theorem evict_of_le (cap : Nat) (l : List String) (h : totalSize l ≤ cap) :
    evict cap l = l :=
  ((evict_max cap l l List.suffix_rfl h).eq_of_length
    (Nat.le_antisymm (evict_max cap l l List.suffix_rfl h).length_le
      (evict_suffix cap l).length_le)).symm

theorem totalSize_logAppend_le (cap : Nat) (l : List String) (x : String)
    (h : totalSize l ≤ cap) : totalSize (logAppend cap l x) ≤ cap := by
  unfold logAppend
  by_cases hx : cap < entrySize x
  · simpa [hx]
  · simpa [hx] using evict_le cap (l ++ [x])

theorem totalSize_foldl_le (cap : Nat) :
    ∀ (xs l : List String), totalSize l ≤ cap →
      totalSize (xs.foldl (logAppend cap) l) ≤ cap
  | [], _, h => h
  | x :: xs, l, h =>
    totalSize_foldl_le cap xs (logAppend cap l x) (totalSize_logAppend_le cap l x h)

theorem suffix_append_single {α : Type} {s l : List α} {x : α}
    (h : s <:+ l ++ [x]) : s = [] ∨ ∃ s', s = s' ++ [x] ∧ s' <:+ l := by
  rcases List.eq_nil_or_concat s with rfl | ⟨s', a, rfl⟩
  · exact Or.inl rfl
  · right
    obtain ⟨t, ht⟩ := h
    rw [List.concat_eq_append, ← List.append_assoc] at ht
    obtain ⟨h1, h2⟩ := List.append_inj' ht rfl
    refine ⟨s', ?_, ⟨t, h1⟩⟩
    rw [List.concat_eq_append, List.cons_eq_cons.mp h2.symm |>.1]

theorem suffix_append_same {α : Type} {s l : List α} (t : List α)
    (h : s <:+ l) : s ++ t <:+ l ++ t := by
  obtain ⟨u, hu⟩ := h
  exact ⟨u, by rw [← List.append_assoc, hu]⟩

theorem appendAll_append_single (cap : Nat) (xs : List String) (x : String) :
    appendAll cap (xs ++ [x]) = logAppend cap (appendAll cap xs) x := by
  unfold appendAll
  rw [List.foldl_append]
  rfl

theorem appendAll_spec (cap : Nat) (xs : List String)
    (hfit : ∀ x ∈ xs, entrySize x ≤ cap) :
    appendAll cap xs <:+ xs ∧
      ∀ s, s <:+ xs → totalSize s ≤ cap → s <:+ appendAll cap xs := by
  induction xs using List.reverseRecOn with
  | nil =>
    refine ⟨List.nil_suffix, fun s hs _ => ?_⟩
    simpa [appendAll] using hs
  | append_singleton ys y ih =>
    have hy : entrySize y ≤ cap := hfit y (by simp)
    have hys : ∀ x ∈ ys, entrySize x ≤ cap := fun x hx => hfit x (by simp [hx])
    obtain ⟨ihsuf, ihmax⟩ := ih hys
    have hstep : appendAll cap (ys ++ [y]) = evict cap (appendAll cap ys ++ [y]) := by
      rw [appendAll_append_single]
      unfold logAppend
      simp [Nat.not_lt.mpr hy]
    constructor
    · rw [hstep]
      exact (evict_suffix cap _).trans (suffix_append_same [y] ihsuf)
    · intro s hs hscap
      rw [hstep]
      rcases suffix_append_single hs with rfl | ⟨s', rfl, hs'⟩
      · exact List.nil_suffix
      · have hs'cap : totalSize s' ≤ cap := by
          rw [totalSize_append] at hscap
          omega
        exact evict_max cap _ _ (suffix_append_same [y] (ihmax s' hs' hs'cap)) hscap

theorem appendAll_of_fits (cap : Nat) (xs : List String)
    (hfit : ∀ x ∈ xs, entrySize x ≤ cap) (hcap : totalSize xs ≤ cap) :
    appendAll cap xs = xs :=
  let h := appendAll_spec cap xs hfit
  (h.2 xs List.suffix_rfl hcap).eq_of_length
    (Nat.le_antisymm (h.2 xs List.suffix_rfl hcap).length_le h.1.length_le) |>.symm

/-! ### Lemmas about interleavings -/

theorem Ilv2.ilv2_length {as bs cs : List String} (h : Ilv2 as bs cs) :
    cs.length = as.length + bs.length := by
  induction h with
  | nil => rfl
  | left _ ih => simp [ih]; omega
  | right _ ih => simp [ih]; omega

theorem IlvN.ilvN_length {ts : List (List String)} {xs : List String}
    (h : IlvN ts xs) : xs.length = (ts.map List.length).sum := by
  induction h with
  | nil => rfl
  | cons h2 _ ih => simp [h2.ilv2_length, ih]

theorem Ilv2.mem_or {as bs cs : List String} (h : Ilv2 as bs cs) :
    ∀ x ∈ cs, x ∈ as ∨ x ∈ bs := by
  induction h with
  | nil => intro x hx; cases hx
  | left _ ih =>
    intro x hx
    rcases List.mem_cons.mp hx with rfl | hx'
    · exact Or.inl (by simp)
    · rcases ih x hx' with h1 | h2
      · exact Or.inl (by simp [h1])
      · exact Or.inr h2
  | right _ ih =>
    intro x hx
    rcases List.mem_cons.mp hx with rfl | hx'
    · exact Or.inr (by simp)
    · rcases ih x hx' with h1 | h2
      · exact Or.inl h1
      · exact Or.inr (by simp [h2])

theorem IlvN.mem_thread {ts : List (List String)} {xs : List String}
    (h : IlvN ts xs) : ∀ x ∈ xs, ∃ t ∈ ts, x ∈ t := by
  induction h with
  | nil => intro x hx; cases hx
  | cons h2 _ ih =>
    intro x hx
    rcases h2.mem_or x hx with h1 | hrest
    · exact ⟨_, by simp, h1⟩
    · obtain ⟨t, ht, hxt⟩ := ih x hrest
      exact ⟨t, by simp [ht], hxt⟩

theorem sum_map_length_const {M : Nat} :
    ∀ ts : List (List String), (∀ t ∈ ts, t.length = M) →
      (ts.map List.length).sum = ts.length * M
  | [], _ => by simp
  | t :: ts, h => by
    have ht : t.length = M := h t (by simp)
    have hts := sum_map_length_const ts (fun u hu => h u (by simp [hu]))
    simp [ht, hts]
    ring

/-! ### Lemmas about the substring search -/

theorem isPref_iff : ∀ n h : List Char, isPref n h = true ↔ ∃ r, h = n ++ r
  | [], h => by simp [isPref]
  | _ :: _, [] => by simp [isPref]
  | a :: as, b :: bs => by
    simp only [isPref, Bool.and_eq_true, beq_iff_eq, isPref_iff as bs,
      List.cons_append]
    constructor
    · rintro ⟨rfl, r, rfl⟩
      exact ⟨r, rfl⟩
    · rintro ⟨r, hr⟩
      obtain ⟨h1, h2⟩ := List.cons_eq_cons.mp hr
      exact ⟨h1.symm, r, h2⟩

theorem hasSub_iff : ∀ n h : List Char, hasSub n h = true ↔ ∃ l r, h = l ++ n ++ r
  | n, [] => by
    simp only [hasSub, isPref_iff]
    constructor
    · rintro ⟨r, hr⟩
      exact ⟨[], r, by simpa using hr⟩
    · rintro ⟨l, r, hr⟩
      rw [List.append_assoc] at hr
      rcases List.append_eq_nil.mp hr.symm with ⟨rfl, h2⟩
      exact ⟨r, by simpa using hr⟩
  | n, c :: rest => by
    simp only [hasSub, Bool.or_eq_true, isPref_iff, hasSub_iff n rest]
    constructor
    · rintro (⟨r, hr⟩ | ⟨l, r, rfl⟩)
      · exact ⟨[], r, by simpa using hr⟩
      · exact ⟨c :: l, r, by simp⟩
    · rintro ⟨l, r, hr⟩
      cases l with
      | nil => exact Or.inl ⟨r, by simpa using hr⟩
      | cons d ds =>
        right
        have h2 : rest = ds ++ (n ++ r) :=
          (List.cons_eq_cons.mp (by simpa using hr)).2
        exact ⟨ds, r, by rw [h2, List.append_assoc]⟩

/-! ### Lemmas about single-bit masks -/

theorem or_two_pow_and_two_pow {i j : Nat} (hij : i ≠ j) (flags : Nat) :
    (flags ||| 2 ^ i) &&& 2 ^ j = flags &&& 2 ^ j := by
  rw [Nat.and_two_pow, Nat.and_two_pow, Nat.testBit_or,
    Nat.testBit_two_pow_of_ne hij, Bool.or_false]

theorem xor_two_pow_and_two_pow {i j : Nat} (hij : i ≠ j) (flags : Nat) :
    (flags ^^^ 2 ^ i) &&& 2 ^ j = flags &&& 2 ^ j := by
  rw [Nat.and_two_pow, Nat.and_two_pow, Nat.testBit_xor,
    Nat.testBit_two_pow_of_ne hij, Bool.xor_false]

/-- The bit positions the header assigns, in order; position 5 is skipped
("1<<5 was previously used, try not to reuse"). -/
def categoryExponents : List Nat := [0, 1, 2, 3, 4, 6, 7, 8, 9, 10, 11]

/-- The forty-character entries of the spec's worked example. -/
def entryA : String := String.mk (List.replicate 40 'A')

/-- Forty bytes of `B`. -/
def entryB : String := String.mk (List.replicate 40 'B')

/-- Forty bytes of `C`. -/
def entryC : String := String.mk (List.replicate 40 'C')

/-! ### The claims -/

/-- C1: for every sequence of append operations on the bounded message log,
after each append (including its internal eviction) the log's running total
byte size is at most the configured cap. -/
theorem bounded_log_cap_invariant (cap : Nat) (xs : List String) :
    totalSize (appendAll cap xs) ≤ cap :=
  totalSize_foldl_le cap xs [] (by simp [totalSize])

/-- C2: for every sequence of appends in which each entry fits under the cap,
the retained entries form a suffix of the appended sequence (most recent
entries, in insertion order), fit under the cap, and contain every suffix of
the appends that fits under the cap — i.e. they are exactly the maximal
fitting suffix.  The spec's worked example (cap 100, three 40-byte entries)
is checked in the witness. -/
theorem bounded_log_fifo (cap : Nat) (xs : List String)
    (hfit : ∀ x ∈ xs, entrySize x ≤ cap) :
    appendAll cap xs <:+ xs ∧ totalSize (appendAll cap xs) ≤ cap ∧
      ∀ s, s <:+ xs → totalSize s ≤ cap → s <:+ appendAll cap xs :=
  ⟨(appendAll_spec cap xs hfit).1, bounded_log_cap_invariant cap xs,
    (appendAll_spec cap xs hfit).2⟩

/-- Witness for C2, on the spec's worked example: cap 100, appending
`"A"`×40, `"B"`×40, `"C"`×40 retains exactly `["B", "C"]`, 80 bytes. -/
theorem bounded_log_fifo_witness :
    (∀ x ∈ [entryA, entryB, entryC], entrySize x ≤ 100) ∧
    appendAll 100 [entryA, entryB, entryC] = [entryB, entryC] ∧
    totalSize (appendAll 100 [entryA, entryB, entryC]) = 80 ∧
    appendAll 100 [entryA, entryB, entryC] <:+ [entryA, entryB, entryC] :=
  ⟨by decide, by decide, by decide,
    (bounded_log_fifo 100 [entryA, entryB, entryC] (by decide)).1⟩

/-- C3: when the `ZFS_DEBUG_DPRINTF` category bit is clear in `zfs_flags`, a
`dprintf` call leaves the machine state entirely unchanged — no entry is
appended and no argument-evaluation side effect occurs — whichever way the
build-time `ZFS_DEBUG` switch is set; hence arguments are evaluated only
when the category bit is set. -/
theorem dprintf_gated (g : Flags) (file func : String) (line : Nat)
    (a : ArgExpr) (m : Machine)
    (h : g.zfs_flags &&& ZFS_DEBUG_DPRINTF = 0) :
    ∀ zd : Bool, dprintf zd g file func line a m = m := by
  intro zd
  cases zd <;> simp [dprintf, h]

/-- Witness for C3: with every category bit except `ZFS_DEBUG_DPRINTF` set,
a `dprintf` call with an effectful argument changes nothing. -/
theorem dprintf_gated_witness :
    (Flags.mk 4094 0 0 1).zfs_flags &&& ZFS_DEBUG_DPRINTF = 0 ∧
    dprintf true (Flags.mk 4094 0 0 1) "dbuf.c" "dbuf_read" 42
        (ArgExpr.mk 5 "msg") (Machine.mk 100 [] 0 0) =
      Machine.mk 100 [] 0 0 :=
  ⟨by decide,
    dprintf_gated (Flags.mk 4094 0 0 1) "dbuf.c" "dbuf_read" 42
      (ArgExpr.mk 5 "msg") (Machine.mk 100 [] 0 0) (by decide) true⟩

/-- C4: `zfs_dbgmsg` renders and appends its message exactly when
`zfs_dbgmsg_enable` is nonzero, and its result never depends on the category
mask `zfs_flags`. -/
theorem zfs_dbgmsg_spec (g : Flags) (file func : String) (line : Nat)
    (a : ArgExpr) (m : Machine) :
    zfs_dbgmsg g file func line a m =
      (if g.zfs_dbgmsg_enable ≠ 0 then
        appendM (evalArg a m) (render file func line a.value)
      else m) ∧
    ∀ n : Nat, zfs_dbgmsg { g with zfs_flags := n } file func line a m =
      zfs_dbgmsg g file func line a m :=
  ⟨rfl, fun _ => rfl⟩

/-- C5: `zfs_panic_recover` always renders and appends the condition
description; with `zfs_recover` set it invokes the abort mechanism zero
times (control returns to the caller), with it clear it invokes the abort
mechanism exactly once. -/
theorem zfs_panic_recover_spec (g : Flags) (desc : ArgExpr) (m : Machine) :
    (zfs_panic_recover g desc m).log = logAppend m.cap m.log desc.value ∧
    (zfs_panic_recover g desc m).aborts =
      (if g.zfs_recover ≠ 0 then m.aborts else m.aborts + 1) := by
  by_cases h : g.zfs_recover ≠ 0 <;>
    simp [zfs_panic_recover, h, appendM, evalArg, recordAbort]

/-- C6: `dprintf_find_string s` is true exactly when some currently retained
entry's text contains `s` as a contiguous substring, and is false for every
`s` immediately after `clear()`. -/
theorem dprintf_find_string_spec (s : String) (m : Machine) :
    (dprintf_find_string s m = true ↔
      ∃ e ∈ m.log, ∃ l r, e.data = l ++ s.data ++ r) ∧
    ∀ s2 : String, dprintf_find_string s2 (clearLog m) = false := by
  constructor
  · simp only [dprintf_find_string, List.any_eq_true, containsSub, hasSub_iff]
  · intro s2
    simp [dprintf_find_string, clearLog]

/-- C7: the formatter shim renders exactly the line
`<file>:<function>:<line>: <formatted template>`, and `__dprintf` hands
exactly that line to the bounded log. -/
theorem render_format (file func : String) (line : Nat) (body : String)
    (dprint : Bool) (m : Machine) :
    render file func line body =
      file ++ ":" ++ func ++ ":" ++ toString line ++ ": " ++ body ∧
    (render file func line body).data =
      file.data ++ [':'] ++ func.data ++ [':'] ++ (toString line).data
        ++ [':', ' '] ++ body.data ∧
    (__dprintf dprint file func line body m).log =
      logAppend m.cap m.log (render file func line body) := by
  refine ⟨rfl, ?_, rfl⟩
  simp only [render, String.data_append]

/-- C9: when the build-time `ZFS_DEBUG` switch is off, `dprintf` is a
complete no-op for every value of `zfs_flags` — even with the
`ZFS_DEBUG_DPRINTF` bit set nothing is appended and no argument is
evaluated. -/
theorem dprintf_noop_without_zfs_debug (g : Flags) (file func : String)
    (line : Nat) (a : ArgExpr) (m : Machine) :
    dprintf false g file func line a m = m := rfl

/-- C10: the eleven category constants are the pairwise distinct single-bit
masks `1<<0` … `1<<11` with bit 5 unassigned; a mask holding only bit 5
activates no category, and setting (`|||`) or toggling (`^^^`) one category
bit never changes whether another category tests as active. -/
theorem category_bits_distinct :
    zfsDebugCategories.Pairwise (· ≠ ·) ∧
    zfsDebugCategories = categoryExponents.map (2 ^ ·) ∧
    zfsDebugCategories.length = 11 ∧
    (∀ c ∈ zfsDebugCategories, (1 <<< 5) &&& c = 0) ∧
    (∀ flags : Nat, ∀ a ∈ zfsDebugCategories, ∀ b ∈ zfsDebugCategories,
      a ≠ b → (flags ||| a) &&& b = flags &&& b ∧
        (flags ^^^ a) &&& b = flags &&& b) := by
  refine ⟨by decide, by decide, by decide, by decide, ?_⟩
  intro flags a ha b hb hab
  have hc : zfsDebugCategories = categoryExponents.map (2 ^ ·) := by decide
  rw [hc, List.mem_map] at ha hb
  obtain ⟨i, _, rfl⟩ := ha
  obtain ⟨j, _, rfl⟩ := hb
  have hij : i ≠ j := fun hhh => hab (by rw [hhh])
  exact ⟨or_two_pow_and_two_pow hij flags, xor_two_pow_and_two_pow hij flags⟩

/-- Witness for C10: setting the TRIM bit does not change whether the
DPRINTF category tests active, and a mask of only bit 5 meets no category. -/
theorem category_bits_distinct_witness :
    (0 ||| ZFS_DEBUG_TRIM) &&& ZFS_DEBUG_DPRINTF = 0 &&& ZFS_DEBUG_DPRINTF ∧
    (1 <<< 5) &&& ZFS_DEBUG_MODIFY = 0 :=
  ⟨(category_bits_distinct.2.2.2.2 0 ZFS_DEBUG_TRIM (by decide)
      ZFS_DEBUG_DPRINTF (by decide) (by decide)).1,
    category_bits_distinct.2.2.2.1 ZFS_DEBUG_MODIFY (by decide)⟩

/-- C8: the log's single lock serializes concurrent appends, so an execution
of `N` threads each appending `M` entries is an interleaving `xs` of the
per-thread sequences.  For every such interleaving: the appended sequence
has exactly `N*M` entries and, when no eviction occurred (total fits under
the cap), the log holds exactly those `N*M` entries; in every case the
surviving entries are the maximal cap-fitting suffix of `xs` (strict FIFO),
with no corrupted, duplicated or missing entries beyond those evicted. -/
theorem concurrent_appends (cap N M : Nat) (threads : List (List String))
    (xs : List String) (hN : threads.length = N)
    (hM : ∀ t ∈ threads, t.length = M) (hIlv : IlvN threads xs)
    (hfit : ∀ t ∈ threads, ∀ x ∈ t, entrySize x ≤ cap) :
    xs.length = N * M ∧
    (totalSize xs ≤ cap → appendAll cap xs = xs) ∧
    appendAll cap xs <:+ xs ∧ totalSize (appendAll cap xs) ≤ cap ∧
    ∀ s, s <:+ xs → totalSize s ≤ cap → s <:+ appendAll cap xs := by
  have hxfit : ∀ x ∈ xs, entrySize x ≤ cap := by
    intro x hx
    obtain ⟨t, ht, hxt⟩ := hIlv.mem_thread x hx
    exact hfit t ht x hxt
  refine ⟨?_, fun hcap => appendAll_of_fits cap xs hxfit hcap,
    (appendAll_spec cap xs hxfit).1, bounded_log_cap_invariant cap xs,
    (appendAll_spec cap xs hxfit).2⟩
  rw [hIlv.ilvN_length, sum_map_length_const threads hM, hN]

/-- Witness for C8: two threads of two entries each, interleaved as
thread-1, thread-2, thread-1, thread-2, under a cap nothing overflows. -/
theorem concurrent_appends_witness :
    (["aa", "cc", "bb", "dd"] : List String).length = 2 * 2 ∧
    (totalSize ["aa", "cc", "bb", "dd"] ≤ 100 →
      appendAll 100 ["aa", "cc", "bb", "dd"] = ["aa", "cc", "bb", "dd"]) ∧
    appendAll 100 ["aa", "cc", "bb", "dd"] <:+ ["aa", "cc", "bb", "dd"] ∧
    totalSize (appendAll 100 ["aa", "cc", "bb", "dd"]) ≤ 100 ∧
    ∀ s, s <:+ ["aa", "cc", "bb", "dd"] → totalSize s ≤ 100 →
      s <:+ appendAll 100 ["aa", "cc", "bb", "dd"] :=
  concurrent_appends 100 2 2 [["aa", "bb"], ["cc", "dd"]]
    ["aa", "cc", "bb", "dd"] (by decide) (by decide)
    (IlvN.cons (Ilv2.left (Ilv2.right (Ilv2.left (Ilv2.right Ilv2.nil))))
      (IlvN.cons (Ilv2.left (Ilv2.left Ilv2.nil)) IlvN.nil))
    (by decide)

end ZfsDebug
